import Mathlib

/-!
Verification of the collaborative text-document core of open-collaboration-tools.

The definitions below are a shallow embedding of the TypeScript sources:
`YjsNormalizedTextDocument` and `computeNormalizedLineOffsets` together with the
string-based `YTextChangeTracker` (src/unnamed/part_000), the TextDocument-based
tracker (packages/open-collaboration-yjs/src/ytext-change-tracker.ts) and the
`applyEdit` retry loop of the VS Code extension
(packages/open-collaboration-vscode/src/collaboration-instance.ts).

Strings are modelled as `List Char` (JS strings are sequences of code units;
all characters relevant here are plain). JS `number` offsets that are
non-negative by construction are modelled as `Nat`; the running `delta` of a
splice, which can be negative, is an `Int`, and `String.prototype.substring`'s
clamp-and-swap semantics is modelled explicitly by `jsSubstring`.
-/

namespace OCT

/-- Line-offset table entry: `normalized` and `offset` columns, as in the
`NormalizedLineOffset` interface of the source. -/
structure NormalizedLineOffset where
  normalized : Nat
  offset : Nat
deriving DecidableEq, Repr

/-- EOL test from the source (`isEOL`): carriage return or line feed. -/
def isEOL (c : Char) : Bool := c == '\r' || c == '\n'

/-- The scanning loop of `computeNormalizedLineOffsets`: walks the text left to
right carrying the current position `i` and the running `normalizationOffset`
`no`; a `\r\n` pair is consumed as one newline and bumps `no`. Returns the
pushed entries and the final normalization offset. -/
def scanOffsets : List Char → Nat → Nat → List NormalizedLineOffset × Nat
  | [], _, no => ([], no)
  | [c], i, no =>
    if isEOL c then ([⟨i + 1 - no, i + 1⟩], no) else ([], no)
  | c :: d :: rest, i, no =>
    if c = '\r' && d = '\n' then
      let r := scanOffsets rest (i + 2) (no + 1)
      (⟨i + 2 - (no + 1), i + 2⟩ :: r.1, r.2)
    else if isEOL c then
      let r := scanOffsets (d :: rest) (i + 1) no
      (⟨i + 1 - no, i + 1⟩ :: r.1, r.2)
    else
      scanOffsets (d :: rest) (i + 1) no

/-- Result record of `computeNormalizedLineOffsets`. -/
structure LineOffsetsResult where
  offsets : List NormalizedLineOffset
  length : Nat
  normalizedLength : Nat
deriving DecidableEq, Repr

/-- `computeNormalizedLineOffsets` from the source: initial entry at both zero
offsets, then the scan; `length` is the native text length and
`normalizedLength` is `text.length + result.length - normalizationOffset`
exactly as written in the source. -/
def computeNormalizedLineOffsets (text : List Char) : LineOffsetsResult :=
  let r := scanOffsets text 0 0
  { offsets := ⟨0, 0⟩ :: r.1
    length := text.length
    normalizedLength := text.length + (⟨0, 0⟩ :: r.1).length - r.2 }

/-- The binary-search loop of `findLineOffset` and `positionAt`. `fuel`
counts the remaining iterations of the `while (low < high)` loop; each
iteration shrinks `high - low`, so the initial fuel `keys.length` provably
never runs out. -/
def bgo (keys : List Nat) (x : Nat) : Nat → Nat → Nat → Nat
  | 0, low, _ => low
  | fuel + 1, low, high =>
    if low < high then
      let mid := (low + high) / 2
      if x < keys.getD mid 0 then bgo keys x fuel low mid
      else bgo keys x fuel (mid + 1) high
    else low

/-- Least index whose key is larger than `x` (or `keys.length`), as the
source's binary search computes it. -/
def bsearchLow (keys : List Nat) (x : Nat) : Nat := bgo keys x keys.length 0 keys.length

/-- `findLineOffset` from the source: binary search on the chosen column and
return the entry at `low - 1`. -/
def findLineOffsetIn (entries : List NormalizedLineOffset) (key : NormalizedLineOffset → Nat)
    (x : Nat) : NormalizedLineOffset :=
  entries.getD (bsearchLow (entries.map key) x - 1) ⟨0, 0⟩

/-- The line-offset table of a text (`getLineOffsets` recomputes it from the
current `_text` whenever the cache is invalid; the cache is semantically
transparent, so the table is a pure function of the text here). -/
def lineOffsets (t : List Char) : List NormalizedLineOffset :=
  (computeNormalizedLineOffsets t).offsets

/-- `originalOffset`: normalized offset to native offset via the line table. -/
def originalOffset (t : List Char) (n : Nat) : Nat :=
  let lineOffset := findLineOffsetIn (lineOffsets t) (fun e => e.normalized) n
  lineOffset.offset + (n - lineOffset.normalized)

/-- `normalizedOffset`: native offset to normalized offset via the line table. -/
def normalizedOffset (t : List Char) (o : Nat) : Nat :=
  let lineOffset := findLineOffsetIn (lineOffsets t) (fun e => e.offset) o
  lineOffset.normalized + (o - lineOffset.offset)

/-- Core of `countNormalizedOffsets`: the number of loop indices `i < bound`
whose character is not `\r`. Indices at or past the end of the text count
(in JS `charCodeAt` yields `NaN` there, which is not equal to 13). -/
def countNonCR : List Char → Nat → Nat
  | _, 0 => 0
  | [], n + 1 => n + 1
  | c :: rest, n + 1 => (if c = '\r' then 0 else 1) + countNonCR rest n

/-- `countNormalizedOffsets(start, end)` from the source: one left-to-right
scan with two counters; `nStart` counts non-`\r` indices below both bounds,
`nEnd` counts those below `end`. -/
def countNormalizedOffsets (t : List Char) (s e : Nat) : Nat × Nat :=
  (countNonCR t (min s e), countNonCR t e)

/-- `normalize` from the source: replace every match of `\r?\n` by the chosen
newline. The regex scans left to right without overlap, which is exactly this
recursion; a lone `\r` is untouched. -/
def normalize : List Char → Bool → List Char
  | [], _ => []
  | '\r' :: '\n' :: rest, withCR =>
    (if withCR then ['\r', '\n'] else ['\n']) ++ normalize rest withCR
  | '\n' :: rest, withCR =>
    (if withCR then ['\r', '\n'] else ['\n']) ++ normalize rest withCR
  | c :: rest, withCR => c :: normalize rest withCR

/-- `YTextChange` from the source; the source's `end` field is `endPos` here
(`end` is a Lean keyword). -/
structure YTextChange where
  start : Nat
  endPos : Nat
  text : List Char
deriving DecidableEq, Repr

/-- Insertion step of the stable sort below: the inserted change goes in
front of the first element whose `start` is not smaller, i.e. BEFORE every
element with an equal `start`. The inserted change precedes those elements in
the original list as well, so ties keep their original order. -/
def insertByStart (c : YTextChange) : List YTextChange → List YTextChange
  | [] => [c]
  | d :: rest => if c.start ≤ d.start then c :: d :: rest else d :: insertByStart c rest

/-- `YTextChange.sort`: sort by ascending `start`. `Array.prototype.sort` with
comparator `a.start - b.start` is a stable sort (ES2019). A stable sort by a
given key is unique as a function, and the insertion sort above is sorted by
`start` and keeps equal-`start` changes in their original order, so it is
extensionally the source's sort. -/
def sortByStart : List YTextChange → List YTextChange
  | [] => []
  | c :: rest => insertByStart c (sortByStart rest)

/-- Clamp of a JS `substring` argument to `[0, len]`. -/
def jsClamp (len : Nat) (x : Int) : Nat := min x.toNat len

/-- `String.prototype.substring(a, b)`: clamp both arguments to `[0, len]`,
swap them when out of order, take the slice in between. -/
def jsSubstring (t : List Char) (a b : Int) : List Char :=
  let a2 := jsClamp t.length a
  let b2 := jsClamp t.length b
  (t.take (max a2 b2)).drop (min a2 b2)

/-- `String.prototype.substring(a)`: suffix from the clamped index. -/
def jsSubstringFrom (t : List Char) (a : Int) : List Char := t.drop (jsClamp t.length a)

/-- `ChangeSet` of `YjsNormalizedTextDocument`: the text before and after an
inbound remote edit. -/
structure ChangeSet where
  before : List Char
  after : List Char
deriving DecidableEq, Repr

/-- The splice loop inside `shouldApply`: apply each change to `fullText` at
`start + delta` / `end + delta` and accumulate the length delta. -/
def spliceAllGo : List YTextChange → List Char → Int → List Char
  | [], fullText, _ => fullText
  | c :: rest, fullText, delta =>
    let fullText2 := jsSubstring fullText 0 ((c.start : Int) + delta) ++ c.text ++
      jsSubstringFrom fullText ((c.endPos : Int) + delta)
    spliceAllGo rest fullText2 (delta + (c.text.length : Int) - ((c.endPos : Int) - (c.start : Int)))

/-- Splice a change list into `before` (the inner loop of `shouldApply`). -/
def spliceAll (before : List Char) (changes : List YTextChange) : List Char :=
  spliceAllGo changes before 0

/-- `YjsNormalizedTextDocument.shouldApply`: sort the candidate changes, and
return `false` as soon as splicing them into some pending change set's
`before` reproduces its `after`. -/
def shouldApplyDoc (changeSets : List ChangeSet) (changes : List YTextChange) : Bool :=
  let sorted := sortByStart changes
  !(changeSets.any (fun cs => spliceAll cs.before sorted == cs.after))

/-- CRDT delta operation. The source's `insert` may also carry an embedded
object or `Y.AbstractType`; those match none of the string/number type guards
and are skipped without advancing the cursor, which `insertEmbedded` models. -/
inductive DeltaOp where
  | retain (n : Nat)
  | insert (s : List Char)
  | insertEmbedded
  | delete (n : Nat)
deriving DecidableEq, Repr

/-- The conversion loop of `YTextChangeDelta.toChanges` (and of
`YTextChangeTracker.applyDelta`, which inlines the same loop): a running
cursor `index` is advanced by retains and deletes; inserts and deletes emit
changes at the cursor. -/
def toChangesGo : List DeltaOp → Nat → List YTextChange
  | [], _ => []
  | DeltaOp.retain n :: rest, index => toChangesGo rest (index + n)
  | DeltaOp.insert s :: rest, index => ⟨index, index, s⟩ :: toChangesGo rest index
  | DeltaOp.insertEmbedded :: rest, index => toChangesGo rest index
  | DeltaOp.delete n :: rest, index => ⟨index, index + n, []⟩ :: toChangesGo rest (index + n)

/-- `YTextChangeDelta.toChanges`. -/
def toChanges (delta : List DeltaOp) : List YTextChange := toChangesGo delta 0

/-- A write performed on the Yjs text (`delete` / `insert`). -/
inductive CrdtOp where
  | del (offset len : Nat)
  | ins (offset : Nat) (s : List Char)
deriving DecidableEq, Repr

/-- The change-list branch of `doUpdate`: for each sorted change, shift by the
running delta, compute the normalized span by the counting scan, splice the
native text, and (when `yjs` is set) emit the CRDT delete and insert. -/
def doUpdateGo : List YTextChange → List Char → Int → List CrdtOp → Bool → List Char × List CrdtOp
  | [], t, _, ops, _ => (t, ops)
  | c :: rest, t, delta, ops, yjs =>
    let startOffset : Int := (c.start : Int) + delta
    let endOffset : Int := (c.endPos : Int) + delta
    let ns := countNonCR t (min startOffset.toNat endOffset.toNat)
    let ne := countNonCR t endOffset.toNat
    let t2 := jsSubstring t 0 startOffset ++ c.text ++ jsSubstringFrom t endOffset
    let ops2 := if yjs then ops ++ [CrdtOp.del ns (ne - ns), CrdtOp.ins ns (normalize c.text false)]
      else ops
    doUpdateGo rest t2 (delta + (c.text.length : Int) - (endOffset - startOffset)) ops2 yjs

/-- `doUpdate` on a change list: sort, then run the splice loop. -/
def doUpdateChanges (t : List Char) (cs : List YTextChange) (yjs : Bool) : List Char × List CrdtOp :=
  doUpdateGo (sortByStart cs) t 0 [] yjs

/-- `YTextChangeEvent`: a full-text replacement or a change list. -/
inductive YEvent where
  | full (s : List Char)
  | changes (cs : List YTextChange)
deriving DecidableEq, Repr

/-- The mutable fields of `YjsNormalizedTextDocument` that the claims are
about: the native text mirror `_text` and the pending `_changeSets`. -/
structure DocState where
  text : List Char
  changeSets : List ChangeSet
deriving DecidableEq, Repr

/-- `doUpdate` on an event; `crdt` is the current content of the Yjs text
(used only for the full-replacement delete). -/
def doUpdateEvent (t crdt : List Char) (ev : YEvent) (yjs : Bool) : List Char × List CrdtOp :=
  match ev with
  | YEvent.full s => (s, if yjs then [CrdtOp.del 0 crdt.length, CrdtOp.ins 0 (normalize s false)] else [])
  | YEvent.changes cs => doUpdateChanges t cs yjs

/-- `update`: a full replacement is always applied; a change list is applied
only when `shouldApply` accepts it. The enclosing Yjs transaction does not
change the sequential result and is not modelled. -/
def update (st : DocState) (crdt : List Char) (ev : YEvent) : DocState × List CrdtOp :=
  match ev with
  | YEvent.full _ =>
    let r := doUpdateEvent st.text crdt ev true
    (⟨r.1, st.changeSets⟩, r.2)
  | YEvent.changes cs =>
    if shouldApplyDoc st.changeSets cs then
      let r := doUpdateEvent st.text crdt ev true
      (⟨r.1, st.changeSets⟩, r.2)
    else (st, [])

/-- The translation step of `observe`: `hasCR` is read from the current
`_text`, the delta is converted to changes, and each change is mapped to
native offsets with its insert text rewritten in the editor's newline style. -/
def observeChanges (t : List Char) (delta : List DeltaOp) : List YTextChange :=
  let hasCR := t.contains '\r'
  (toChanges delta).map (fun c =>
    ⟨originalOffset t c.start, originalOffset t c.endPos, normalize c.text hasCR⟩)

/-- The behavior claimed by the specification for comparison: the same
translation step but with `hasCR` detected once, from the text the document
was constructed with, rather than from the current text. -/
def observeChangesConstructionCR (constructionText currentText : List Char)
    (delta : List DeltaOp) : List YTextChange :=
  let hasCR := constructionText.contains '\r'
  (toChanges delta).map (fun c =>
    ⟨originalOffset currentText c.start, originalOffset currentText c.endPos,
      normalize c.text hasCR⟩)

/-- The state of `observe` after a non-local event has been translated, the
text mirror updated (without broadcasting), and the `ChangeSet` pushed — i.e.
while the user callback is still pending. -/
def observePending (st : DocState) (delta : List DeltaOp) : DocState :=
  let changeSet := observeChanges st.text delta
  let before := st.text
  let after := (doUpdateChanges before changeSet false).1
  ⟨after, st.changeSets ++ [⟨before, after⟩]⟩

/-- A whole run of `observe`: local events return immediately; otherwise the
pending state is built, the callback awaited, and only on its successful
completion is the pushed `ChangeSet` spliced back out (the `indexOf` removal
targets the very object that was pushed). A callback rejection propagates and
skips the removal — there is no try/finally in the source. -/
def observeStep (st : DocState) (isLocal : Bool) (delta : List DeltaOp)
    (callback : List YTextChange → Except String Unit) : DocState × Except String Unit :=
  if isLocal then (st, Except.ok ())
  else
    let st2 := observePending st delta
    match callback (observeChanges st.text delta) with
    | Except.ok _ => (⟨st2.text, st.changeSets⟩, Except.ok ())
    | Except.error e => (st2, Except.error e)

/-- `YTextChangeTracker.applyTextChanges` (string-based tracker): splice the
changes in the given order into `text`, throwing `Overlapping edit` when a
change starts before the previous change's end. `acc` is the concatenation of
the `spans` array pushed so far. -/
def applyTextChangesGo (text : List Char) : List YTextChange → Nat → List Char → Except String (List Char)
  | [], lastModified, acc => Except.ok (acc ++ text.drop lastModified)
  | c :: rest, lastModified, acc =>
    if c.start < lastModified then Except.error "Overlapping edit"
    else
      let acc2 := if lastModified < c.start then acc ++ (text.take c.start).drop lastModified else acc
      let acc3 := if 0 < c.text.length then acc2 ++ c.text else acc2
      applyTextChangesGo text rest c.endPos acc3

/-- `YTextChangeTracker.applyTextChanges`. -/
def applyTextChanges (text : List Char) (changes : List YTextChange) : Except String (List Char) :=
  applyTextChangesGo text changes 0 []

/-- Non-overlap predicate matching the tracker's check: every change starts at
or after the running `lastModifiedOffset` (the previous change's end). -/
def noOverlapB : Nat → List YTextChange → Bool
  | _, [] => true
  | lm, c :: rest => decide (lm ≤ c.start) && noOverlapB c.endPos rest

/-- The `applyEdit` retry loop of the VS Code extension. `edits k` is the
freshly recomputed `WorkspaceEdit` of attempt `k` (`none` models the source's
early `return true` when no edit is needed); `respond k` is the outcome of
`vscode.workspace.applyEdit` on attempt `k` (`Except.error` models a thrown
exception, which the source catches and turns into `return false`). `fuel`
is the number of attempts left out of `maxAttempts`. Returns the final
success flag and the list of submitted edits in order. -/
def applyEditLoop {α : Type} (edits : Nat → Option α) (respond : Nat → Except Unit Bool) :
    Nat → Nat → Bool × List α
  | 0, _ => (false, [])
  | fuel + 1, k =>
    match edits k with
    | none => (true, [])
    | some e =>
      match respond k with
      | Except.error _ => (false, [e])
      | Except.ok true => (true, [e])
      | Except.ok false =>
        let r := applyEditLoop edits respond fuel (k + 1)
        (r.1, e :: r.2)

/-- `CollaborationInstance.applyEdit` (`maxAttempts = 20`). -/
def applyEdit {α : Type} (edits : Nat → Option α) (respond : Nat → Except Unit Bool) : Bool × List α :=
  applyEditLoop edits respond 20 0

/-- Outcome of handling one inbound remote edit in the VS Code observer. -/
structure RemoteEditOutcome (α : Type) where
  applied : Bool
  submitted : List α
  resyncScheduled : Bool
  raised : Option String
deriving DecidableEq, Repr

/-- The observer path for a remote edit: the tracker callback awaits
`applyEdit`, which catches every failure and resolves normally, so control
always reaches the `throttle()` call that schedules the debounced
reconciliation (resync), and nothing is re-raised to the caller. -/
def handleRemoteEdit {α : Type} (edits : Nat → Option α) (respond : Nat → Except Unit Bool) :
    RemoteEditOutcome α :=
  let r := applyEdit edits respond
  ⟨r.1, r.2, true, none⟩

/-- Every `\r` in the text is immediately followed by `\n`. -/
def noLoneCR : List Char → Bool
  | [] => true
  | c :: rest => (c != '\r' || rest.head? == some '\n') && noLoneCR rest

/-- `o` points at the `\n` of a `\r\n` pair. -/
def insideCRLF (t : List Char) (o : Nat) : Bool :=
  decide (0 < o) && (t.getD (o - 1) 'x' == '\r') && (t.getD o 'x' == '\n')

/-- Strict growth of consecutive line-table entries in both columns, plus the
gap bound: the normalized column never grows faster than the native column. -/
def StepOK (a b : NormalizedLineOffset) : Prop :=
  a.offset < b.offset ∧ a.normalized < b.normalized ∧
    b.normalized + a.offset ≤ b.offset + a.normalized

end OCT

namespace OCT

/-! ## Generic list helpers -/

theorem getD_map_of_lt {α β : Type} (l : List α) (f : α → β) (n : Nat) (d : α) (d2 : β)
    (h : n < l.length) : (l.map f).getD n d2 = f (l.getD n d) := by
  induction l generalizing n with
  | nil => simp at h
  | cons a rest ih =>
    cases n with
    | zero => simp
    | succ k => simpa using ih k (by simpa using h)

theorem getD_mem_of_lt {α : Type} (l : List α) (n : Nat) (d : α) (h : n < l.length) :
    l.getD n d ∈ l := by
  rw [List.getD_eq_getElem?_getD, List.getElem?_eq_getElem h]
  exact List.getElem_mem h

theorem exists_getD_of_mem {α : Type} {e : α} {l : List α} (d : α) (h : e ∈ l) :
    ∃ j, j < l.length ∧ l.getD j d = e := by
  obtain ⟨n, hn, rfl⟩ := List.getElem_of_mem h
  exact ⟨n, hn, by rw [List.getD_eq_getElem?_getD, List.getElem?_eq_getElem hn]; rfl⟩

theorem pairwise_getD {α : Type} {R : α → α → Prop} {l : List α} (h : l.Pairwise R)
    (i j : Nat) (d : α) (hij : i < j) (hj : j < l.length) : R (l.getD i d) (l.getD j d) := by
  have hi : i < l.length := lt_trans hij hj
  have hR := List.pairwise_iff_getElem.mp h i j hi hj hij
  rw [List.getD_eq_getElem?_getD, List.getElem?_eq_getElem hi,
    List.getD_eq_getElem?_getD, List.getElem?_eq_getElem hj]
  exact hR

/-! ## Binary search specification -/

theorem bgo_spec (keys : List Nat) (x : Nat) (hp : keys.Pairwise (fun a b => a ≤ b)) :
    ∀ fuel low high, low ≤ high → high ≤ keys.length → high - low ≤ fuel →
      (∀ j, j < low → keys.getD j 0 ≤ x) →
      (∀ j, high ≤ j → j < keys.length → x < keys.getD j 0) →
      (∀ j, j < bgo keys x fuel low high → keys.getD j 0 ≤ x) ∧
        (∀ j, bgo keys x fuel low high ≤ j → j < keys.length → x < keys.getD j 0) ∧
        low ≤ bgo keys x fuel low high ∧ bgo keys x fuel low high ≤ high := by
  intro fuel
  induction fuel with
  | zero =>
    intro low high h1 h2 h3 h4 h5
    have hhl : high = low := by omega
    subst hhl
    simp only [bgo]
    exact ⟨h4, fun j hj hjl => h5 j hj hjl, le_refl _, le_refl _⟩
  | succ fuel ih =>
    intro low high h1 h2 h3 h4 h5
    by_cases hlh : low < high
    · have hmid1 : low ≤ (low + high) / 2 := by omega
      have hmid2 : (low + high) / 2 < high := by omega
      by_cases hcmp : x < keys.getD ((low + high) / 2) 0
      · have hres : bgo keys x (fuel + 1) low high = bgo keys x fuel low ((low + high) / 2) := by
          simp only [bgo]
          rw [if_pos hlh, if_pos hcmp]
        rw [hres]
        have h5b : ∀ j, (low + high) / 2 ≤ j → j < keys.length → x < keys.getD j 0 := by
          intro j hj hjl
          rcases Nat.eq_or_lt_of_le hj with h | h
          · rw [← h]; exact hcmp
          · have := pairwise_getD hp ((low + high) / 2) j 0 h hjl
            omega
        obtain ⟨a, b, c, d⟩ := ih low ((low + high) / 2) hmid1 (by omega) (by omega) h4 h5b
        exact ⟨a, b, c, by omega⟩
      · have hres : bgo keys x (fuel + 1) low high = bgo keys x fuel ((low + high) / 2 + 1) high := by
          simp only [bgo]
          rw [if_pos hlh, if_neg hcmp]
        rw [hres]
        have hmle : keys.getD ((low + high) / 2) 0 ≤ x := by omega
        have h4b : ∀ j, j < (low + high) / 2 + 1 → keys.getD j 0 ≤ x := by
          intro j hj
          rcases Nat.lt_or_ge j ((low + high) / 2) with h | h
          · have := pairwise_getD hp j ((low + high) / 2) 0 h (by omega)
            omega
          · have hje : j = (low + high) / 2 := by omega
            rw [hje]; exact hmle
        obtain ⟨a, b, c, d⟩ := ih ((low + high) / 2 + 1) high (by omega) h2 (by omega) h4b h5
        exact ⟨a, b, by omega, d⟩
    · have hres : bgo keys x (fuel + 1) low high = low := by
        simp only [bgo]
        rw [if_neg hlh]
      rw [hres]
      exact ⟨h4, fun j hj hjl => h5 j (by omega) hjl, le_refl _, by omega⟩

theorem findLineOffsetIn_spec (entries : List NormalizedLineOffset)
    (key : NormalizedLineOffset → Nat) (x : Nat)
    (hp : entries.Pairwise (fun a b => key a < key b)) (h0 : 0 < entries.length)
    (hk : key (entries.getD 0 ⟨0, 0⟩) ≤ x) :
    ∃ m, m < entries.length ∧ findLineOffsetIn entries key x = entries.getD m ⟨0, 0⟩ ∧
      key (entries.getD m ⟨0, 0⟩) ≤ x ∧
      ∀ j, m < j → j < entries.length → x < key (entries.getD j ⟨0, 0⟩) := by
  have hplen : (entries.map key).length = entries.length := by simp
  have hple : (entries.map key).Pairwise (fun a b => a ≤ b) := by
    have := (List.pairwise_map.mpr (hp.imp (fun h => le_of_lt h)))
    exact this
  obtain ⟨s1, s2, s3, s4⟩ := bgo_spec (entries.map key) x hple (entries.map key).length 0
    (entries.map key).length (by omega) (le_refl _) (by omega)
    (by intro j hj; omega) (by intro j hj hjl; omega)
  set r := bgo (entries.map key) x (entries.map key).length 0 (entries.map key).length with hr
  have hr1 : 1 ≤ r := by
    by_contra h
    have hr0 : r = 0 := by omega
    have := s2 0 (by omega) (by omega)
    rw [getD_map_of_lt entries key 0 ⟨0, 0⟩ 0 h0] at this
    omega
  refine ⟨r - 1, by omega, ?_, ?_, ?_⟩
  · have hbs : bsearchLow (entries.map key) x = r := by
      rw [bsearchLow, hr]
    rw [findLineOffsetIn, hbs]
  · have := s1 (r - 1) (by omega)
    rw [getD_map_of_lt entries key (r - 1) ⟨0, 0⟩ 0 (by omega)] at this
    exact this
  · intro j hj hjl
    have := s2 j (by omega) (by omega)
    rw [getD_map_of_lt entries key j ⟨0, 0⟩ 0 hjl] at this
    exact this

/-! ## Line-offset table invariants -/

theorem scan_offset_gt : ∀ (t : List Char) (i no : Nat),
    ∀ e ∈ (scanOffsets t i no).1, i < e.offset := by
  intro t i no
  induction t, i, no using scanOffsets.induct with
  | case1 i no => simp [scanOffsets]
  | case2 c i no h =>
    intro e he
    simp only [scanOffsets, if_pos h, List.mem_singleton] at he
    subst he
    simp
  | case3 c i no h =>
    intro e he
    simp only [scanOffsets, if_neg h, List.not_mem_nil] at he
  | case4 c d rest i no h ih =>
    intro e he
    simp only [scanOffsets, if_pos h, List.mem_cons] at he
    rcases he with he | he
    · subst he; simp
    · have := ih e he
      omega
  | case5 c d rest i no h h2 ih =>
    intro e he
    simp only [scanOffsets, if_neg h, if_pos h2, List.mem_cons] at he
    rcases he with he | he
    · subst he; simp
    · have := ih e he
      omega
  | case6 c d rest i no h h2 ih =>
    intro e he
    simp only [scanOffsets, if_neg h, if_neg h2] at he
    have := ih e he
    omega

theorem scan_chain : ∀ (t : List Char) (i no : Nat), ∀ p : NormalizedLineOffset,
    no ≤ i → p.offset ≤ i → p.normalized + no ≤ i → p.offset ≤ p.normalized + no →
    List.Chain' StepOK (p :: (scanOffsets t i no).1) := by
  intro t i no
  induction t, i, no using scanOffsets.induct with
  | case1 i no =>
    intro p h1 h2 h3 h4
    simp [scanOffsets]
  | case2 c i no h =>
    intro p h1 h2 h3 h4
    simp only [scanOffsets, if_pos h]
    refine List.chain'_cons.mpr ⟨⟨?_, ?_, ?_⟩, List.chain'_singleton _⟩ <;> simp <;> omega
  | case3 c i no h =>
    intro p h1 h2 h3 h4
    simp [scanOffsets, if_neg h]
  | case4 c d rest i no h ih =>
    intro p h1 h2 h3 h4
    simp only [scanOffsets, if_pos h]
    refine List.chain'_cons.mpr ⟨⟨?_, ?_, ?_⟩, ?_⟩
    · simp; omega
    · simp; omega
    · simp; omega
    · exact ih ⟨i + 2 - (no + 1), i + 2⟩ (by omega) (by simp) (by simp; omega) (by simp; omega)
  | case5 c d rest i no h h2 ih =>
    intro p h1 h2b h3 h4
    simp only [scanOffsets, if_neg h, if_pos h2]
    refine List.chain'_cons.mpr ⟨⟨?_, ?_, ?_⟩, ?_⟩
    · simp; omega
    · simp; omega
    · simp; omega
    · exact ih ⟨i + 1 - no, i + 1⟩ (by omega) (by simp) (by simp; omega) (by simp; omega)
  | case6 c d rest i no h h2 ih =>
    intro p h1 h2b h3 h4
    simp only [scanOffsets, if_neg h, if_neg h2]
    exact ih p (by omega) (by omega) (by omega) (by omega)

instance : IsTrans NormalizedLineOffset StepOK :=
  ⟨fun a b c hab hbc => by
    obtain ⟨x1, x2, x3⟩ := hab
    obtain ⟨y1, y2, y3⟩ := hbc
    exact ⟨lt_trans x1 y1, lt_trans x2 y2, by omega⟩⟩

theorem lineOffsets_eq (t : List Char) :
    lineOffsets t = ⟨0, 0⟩ :: (scanOffsets t 0 0).1 := rfl

theorem tableChain (t : List Char) : List.Chain' StepOK (lineOffsets t) := by
  rw [lineOffsets_eq]
  exact scan_chain t 0 0 ⟨0, 0⟩ (le_refl 0) (by decide) (by decide) (by decide)

theorem tablePairwise (t : List Char) : (lineOffsets t).Pairwise StepOK :=
  List.chain'_iff_pairwise.mp (tableChain t)

theorem tablePairwise_offset (t : List Char) :
    (lineOffsets t).Pairwise (fun a b => a.offset < b.offset) :=
  (tablePairwise t).imp (fun h => h.1)

theorem tablePairwise_norm (t : List Char) :
    (lineOffsets t).Pairwise (fun a b => a.normalized < b.normalized) :=
  (tablePairwise t).imp (fun h => h.2.1)

theorem lineOffsets_length_pos (t : List Char) : 0 < (lineOffsets t).length := by
  rw [lineOffsets_eq]
  simp

theorem lineOffsets_getD_zero (t : List Char) : (lineOffsets t).getD 0 ⟨0, 0⟩ = ⟨0, 0⟩ := by
  rw [lineOffsets_eq]
  rfl

/-! ## Round trip of offset translation (claims C2, C8) -/

/-- C8: the computed line-offset table is strictly monotonically increasing in
both columns: consecutive entries grow strictly in `offset` and in
`normalized`. -/
theorem table_strict_monotone (t : List Char) :
    List.Chain' (fun a b => a.offset < b.offset ∧ a.normalized < b.normalized)
      (computeNormalizedLineOffsets t).offsets :=
  (tableChain t).imp (fun _ _ h => ⟨h.1, h.2.1⟩)

/-- C2 (amended): translating a normalized offset to a native offset and back
is the identity, for every normalized offset — including those that land on a
stripped carriage return. No offset snaps to `n + 1`. -/
theorem normalizedOffset_originalOffset (t : List Char) (n : Nat) :
    normalizedOffset t (originalOffset t n) = n := by
  obtain ⟨m, hm, heqm, hmle, hmgt⟩ := findLineOffsetIn_spec (lineOffsets t)
    (fun e => e.normalized) n (tablePairwise_norm t) (lineOffsets_length_pos t)
    (by rw [lineOffsets_getD_zero]; exact Nat.zero_le n)
  have horig : originalOffset t n =
      ((lineOffsets t).getD m ⟨0, 0⟩).offset + (n - ((lineOffsets t).getD m ⟨0, 0⟩).normalized) := by
    rw [originalOffset, heqm]
  have hgtoff : ∀ j, m < j → j < (lineOffsets t).length →
      ((lineOffsets t).getD m ⟨0, 0⟩).offset + (n - ((lineOffsets t).getD m ⟨0, 0⟩).normalized) <
        ((lineOffsets t).getD j ⟨0, 0⟩).offset := by
    intro j hj hjl
    have hn := hmgt j hj hjl
    obtain ⟨u1, u2, u3⟩ := pairwise_getD (tablePairwise t) m j ⟨0, 0⟩ hj hjl
    omega
  obtain ⟨m2, hm2, heqm2, hm2le, hm2gt⟩ := findLineOffsetIn_spec (lineOffsets t)
    (fun e => e.offset)
    (((lineOffsets t).getD m ⟨0, 0⟩).offset + (n - ((lineOffsets t).getD m ⟨0, 0⟩).normalized))
    (tablePairwise_offset t) (lineOffsets_length_pos t)
    (by rw [lineOffsets_getD_zero]; exact Nat.zero_le _)
  have hmm : m2 = m := by
    rcases lt_trichotomy m2 m with h | h | h
    · have hcon := hm2gt m h hm
      omega
    · exact h
    · have hcon := hgtoff m2 h hm2
      omega
  rw [horig, normalizedOffset, heqm2, hmm]
  omega

/-- C2 (counterexample to the claim as stated): in the text `a\r\nb`, the
normalized offset 1 maps to native offset 1, which is the stripped `\r`
itself; translating back yields 1 again, not 2 — the round trip does not snap
to `n + 1`. -/
theorem roundtrip_no_snap_counterexample :
    originalOffset "a\r\nb".toList 1 = 1 ∧
    "a\r\nb".toList.getD (originalOffset "a\r\nb".toList 1) 'x' = '\r' ∧
    normalizedOffset "a\r\nb".toList (originalOffset "a\r\nb".toList 1) = 1 ∧
    ¬ normalizedOffset "a\r\nb".toList (originalOffset "a\r\nb".toList 1) = 1 + 1 := by
  decide

/-! ## Equivalence of the counting scan and the table lookup (claim C7) -/

theorem countNonCR_zero (t : List Char) : countNonCR t 0 = 0 := by
  cases t <;> rfl

theorem countNonCR_succ : ∀ (t : List Char) (q : Nat), q < t.length →
    countNonCR t (q + 1) = countNonCR t q + (if t.getD q 'x' = '\r' then 0 else 1) := by
  intro t
  induction t with
  | nil => intro q hq; simp at hq
  | cons c rest ih =>
    intro q hq
    cases q with
    | zero =>
      simp only [countNonCR, countNonCR_zero, List.getD_cons_zero]
      omega
    | succ k =>
      have hk : k < rest.length := by simpa using hq
      simp only [countNonCR, List.getD_cons_succ, ih k hk]
      omega

theorem countNonCR_interval (t : List Char) (a b : Nat) (hab : a ≤ b) (hb : b ≤ t.length)
    (h : ∀ q, a ≤ q → q < b → t.getD q 'x' ≠ '\r') :
    countNonCR t b = countNonCR t a + (b - a) := by
  induction b with
  | zero =>
    have : a = 0 := by omega
    subst this
    omega
  | succ k ih =>
    rcases Nat.eq_or_lt_of_le hab with he | hlt
    · rw [← he]
      omega
    · have hak : a ≤ k := by omega
      have hkb : k < t.length := by omega
      have hknot := h k hak (by omega)
      have := ih hak (by omega) (fun q hq1 hq2 => h q hq1 (by omega))
      rw [countNonCR_succ t k hkb, this, if_neg hknot]
      omega

theorem noLoneCR_cons {c : Char} {rest : List Char} (h : noLoneCR (c :: rest) = true) :
    (c = '\r' → rest.head? = some '\n') ∧ noLoneCR rest = true := by
  simp only [noLoneCR, Bool.and_eq_true, Bool.or_eq_true, bne_iff_ne, beq_iff_eq] at h
  obtain ⟨h1, h2⟩ := h
  refine ⟨?_, h2⟩
  intro hc
  rcases h1 with h1 | h1
  · exact absurd hc h1
  · exact h1

theorem noLoneCR_next : ∀ (t : List Char) (q : Nat), noLoneCR t = true → q < t.length →
    t.getD q 'x' = '\r' → q + 1 < t.length ∧ t.getD (q + 1) 'x' = '\n' := by
  intro t
  induction t with
  | nil => intro q _ hq; simp at hq
  | cons c rest ih =>
    intro q h hq hcr
    obtain ⟨h1, h2⟩ := noLoneCR_cons h
    cases q with
    | zero =>
      simp only [List.getD_cons_zero] at hcr
      have hhd := h1 hcr
      cases rest with
      | nil => simp at hhd
      | cons d rest2 =>
        simp only [List.head?_cons, Option.some.injEq] at hhd
        subst hhd
        simp
    | succ k =>
      have hk : k < rest.length := by simpa using hq
      simp only [List.getD_cons_succ] at hcr
      obtain ⟨ha, hb⟩ := ih k h2 hk hcr
      exact ⟨by simpa using Nat.succ_lt_succ ha, by simpa using hb⟩

theorem countNonCR_crlf_cons (rest : List Char) (m : Nat) :
    countNonCR ('\r' :: '\n' :: rest) (m + 2) = 1 + countNonCR rest m := by
  show (if ('\r' : Char) = '\r' then 0 else 1) +
    ((if ('\n' : Char) = '\r' then 0 else 1) + countNonCR rest m) = 1 + countNonCR rest m
  rw [if_pos rfl, if_neg (by decide)]
  omega

theorem countNonCR_cons_nonCR (c : Char) (rest : List Char) (m : Nat) (h : ¬ c = '\r') :
    countNonCR (c :: rest) (m + 1) = 1 + countNonCR rest m := by
  simp only [countNonCR]
  rw [if_neg h]

theorem scan_norm_count : ∀ (t : List Char) (i no : Nat), noLoneCR t = true → no ≤ i →
    ∀ e ∈ (scanOffsets t i no).1, e.normalized + no = i + countNonCR t (e.offset - i) := by
  intro t i no
  induction t, i, no using scanOffsets.induct with
  | case1 i no => simp [scanOffsets]
  | case2 c i no h =>
    intro hno hle e he
    simp only [scanOffsets, if_pos h, List.mem_singleton] at he
    subst he
    simp only [isEOL, Bool.or_eq_true, beq_iff_eq] at h
    rcases h with h | h
    · exfalso
      subst h
      obtain ⟨h1, _⟩ := noLoneCR_cons hno
      simp at h1
    · subst h
      have harg : i + 1 - i = 0 + 1 := by omega
      rw [harg, countNonCR_cons_nonCR '\n' [] 0 (by decide), countNonCR_zero]
      show i + 1 - no + no = i + (1 + 0)
      omega
  | case3 c i no h =>
    intro hno hle e he
    simp only [scanOffsets, if_neg h, List.not_mem_nil] at he
  | case4 c d rest i no h ih =>
    intro hno hle e he
    simp only [scanOffsets, if_pos h, List.mem_cons] at he
    have h' := h
    simp only [Bool.and_eq_true, decide_eq_true_eq] at h'
    obtain ⟨hc, hd⟩ := h'
    subst hc
    subst hd
    obtain ⟨_, hno2⟩ := noLoneCR_cons hno
    obtain ⟨_, hno3⟩ := noLoneCR_cons hno2
    rcases he with he | he
    · subst he
      have harg : i + 2 - i = 0 + 2 := by omega
      rw [harg, countNonCR_crlf_cons rest 0, countNonCR_zero]
      show i + 2 - (no + 1) + no = i + (1 + 0)
      omega
    · have hgt := scan_offset_gt rest (i + 2) (no + 1) e he
      have hstep := ih hno3 (by omega) e he
      have harg : e.offset - i = (e.offset - (i + 2)) + 2 := by omega
      rw [harg, countNonCR_crlf_cons]
      omega
  | case5 c d rest i no h h2 ih =>
    intro hno hle e he
    have hcn : c = '\n' := by
      simp only [isEOL, Bool.or_eq_true, beq_iff_eq] at h2
      rcases h2 with hc | hc
      · exfalso
        subst hc
        obtain ⟨h1, _⟩ := noLoneCR_cons hno
        have hh := h1 rfl
        simp only [List.head?_cons, Option.some.injEq] at hh
        simp [hh] at h
      · exact hc
    subst hcn
    obtain ⟨_, hno2⟩ := noLoneCR_cons hno
    simp only [scanOffsets, if_neg h, if_pos h2, List.mem_cons] at he
    rcases he with he | he
    · subst he
      have harg : i + 1 - i = 0 + 1 := by omega
      rw [harg, countNonCR_cons_nonCR '\n' (d :: rest) 0 (by decide), countNonCR_zero]
      show i + 1 - no + no = i + (1 + 0)
      omega
    · have hgt := scan_offset_gt (d :: rest) (i + 1) no e he
      have hstep := ih hno2 (by omega) e he
      have harg : e.offset - i = (e.offset - (i + 1)) + 1 := by omega
      rw [harg, countNonCR_cons_nonCR '\n' (d :: rest) _ (by decide)]
      omega
  | case6 c d rest i no h h2 ih =>
    intro hno hle e he
    have hcr : ¬ c = '\r' := by
      intro hc
      simp [hc, isEOL] at h2
    obtain ⟨_, hno2⟩ := noLoneCR_cons hno
    simp only [scanOffsets, if_neg h, if_neg h2] at he
    have hgt := scan_offset_gt (d :: rest) (i + 1) no e he
    have hstep := ih hno2 (by omega) e he
    have harg : e.offset - i = (e.offset - (i + 1)) + 1 := by omega
    rw [harg, countNonCR_cons_nonCR c (d :: rest) _ hcr]
    omega

theorem scan_crlf_entry : ∀ (t : List Char) (i no : Nat), ∀ p : Nat, p + 1 < t.length →
    t.getD p 'x' = '\r' → t.getD (p + 1) 'x' = '\n' →
    ∃ e ∈ (scanOffsets t i no).1, e.offset = i + p + 2 := by
  intro t i no
  induction t, i, no using scanOffsets.induct with
  | case1 i no =>
    intro p hp _ _
    simp at hp
  | case2 c i no h =>
    intro p hp _ _
    simp at hp
  | case3 c i no h =>
    intro p hp _ _
    simp at hp
  | case4 c d rest i no h ih =>
    intro p hp hcr hlf
    have h' := h
    simp only [Bool.and_eq_true, decide_eq_true_eq] at h'
    obtain ⟨hc, hd⟩ := h'
    cases p with
    | zero =>
      refine ⟨⟨i + 2 - (no + 1), i + 2⟩, ?_, by simp⟩
      simp only [scanOffsets, if_pos h]
      exact List.mem_cons_self _ _
    | succ q =>
      cases q with
      | zero =>
        exfalso
        simp only [List.getD_cons_succ, List.getD_cons_zero] at hcr
        rw [hd] at hcr
        exact absurd hcr (by decide)
      | succ q2 =>
        have hlen : (c :: d :: rest).length = rest.length + 2 := by simp
        have hp2 : q2 + 1 < rest.length := by omega
        have hcr2 : rest.getD q2 'x' = '\r' := by simpa using hcr
        have hlf2 : rest.getD (q2 + 1) 'x' = '\n' := by simpa using hlf
        obtain ⟨e, hee, heo⟩ := ih q2 hp2 hcr2 hlf2
        refine ⟨e, ?_, by omega⟩
        simp only [scanOffsets, if_pos h]
        exact List.mem_cons_of_mem _ hee
  | case5 c d rest i no h h2 ih =>
    intro p hp hcr hlf
    cases p with
    | zero =>
      exfalso
      simp only [List.getD_cons_zero] at hcr
      simp only [List.getD_cons_succ, List.getD_cons_zero] at hlf
      apply h
      simp [hcr, hlf]
    | succ q =>
      have hlen : (c :: d :: rest).length = (d :: rest).length + 1 := by simp
      have hp2 : q + 1 < (d :: rest).length := by omega
      have hcr2 : (d :: rest).getD q 'x' = '\r' := by simpa using hcr
      have hlf2 : (d :: rest).getD (q + 1) 'x' = '\n' := by simpa using hlf
      obtain ⟨e, hee, heo⟩ := ih q hp2 hcr2 hlf2
      refine ⟨e, ?_, by omega⟩
      simp only [scanOffsets, if_neg h, if_pos h2]
      exact List.mem_cons_of_mem _ hee
  | case6 c d rest i no h h2 ih =>
    intro p hp hcr hlf
    cases p with
    | zero =>
      exfalso
      simp only [List.getD_cons_zero] at hcr
      apply h2
      simp [isEOL, hcr]
    | succ q =>
      have hlen : (c :: d :: rest).length = (d :: rest).length + 1 := by simp
      have hp2 : q + 1 < (d :: rest).length := by omega
      have hcr2 : (d :: rest).getD q 'x' = '\r' := by simpa using hcr
      have hlf2 : (d :: rest).getD (q + 1) 'x' = '\n' := by simpa using hlf
      obtain ⟨e, hee, heo⟩ := ih q hp2 hcr2 hlf2
      refine ⟨e, ?_, by omega⟩
      simp only [scanOffsets, if_neg h, if_neg h2]
      exact hee

/-- The table lookup agrees with the counting scan at every offset that is in
range, does not point at the `\n` of a `\r\n` pair, in a text without lone
carriage returns. -/
theorem normalizedOffset_eq_countNonCR (t : List Char) (o : Nat) (h1 : noLoneCR t = true)
    (h2 : o ≤ t.length) (h3 : insideCRLF t o = false) :
    normalizedOffset t o = countNonCR t o := by
  obtain ⟨m, hm, heq, hle, hgt⟩ := findLineOffsetIn_spec (lineOffsets t) (fun e => e.offset) o
    (tablePairwise_offset t) (lineOffsets_length_pos t)
    (by rw [lineOffsets_getD_zero]; exact Nat.zero_le o)
  have hEcount : ((lineOffsets t).getD m ⟨0, 0⟩).normalized =
      countNonCR t ((lineOffsets t).getD m ⟨0, 0⟩).offset := by
    cases m with
    | zero =>
      rw [lineOffsets_getD_zero]
      exact (countNonCR_zero t).symm
    | succ k =>
      have hl : (lineOffsets t).length = (scanOffsets t 0 0).1.length + 1 := by
        rw [lineOffsets_eq]
        simp
      have hk : k < (scanOffsets t 0 0).1.length := by omega
      have hmem : (lineOffsets t).getD (k + 1) ⟨0, 0⟩ ∈ (scanOffsets t 0 0).1 := by
        rw [lineOffsets_eq, List.getD_cons_succ]
        exact getD_mem_of_lt _ k _ hk
      have hsc := scan_norm_count t 0 0 h1 (le_refl 0) _ hmem
      simpa using hsc
  have hNoCR : ∀ q, ((lineOffsets t).getD m ⟨0, 0⟩).offset ≤ q → q < o →
      t.getD q 'x' ≠ '\r' := by
    intro q hq1 hq2 hcr
    have hql : q < t.length := by omega
    obtain ⟨hq1l, hlf⟩ := noLoneCR_next t q h1 hql hcr
    obtain ⟨e, hee, heo⟩ := scan_crlf_entry t 0 0 q hq1l hcr hlf
    have hetab : e ∈ lineOffsets t := by
      rw [lineOffsets_eq]
      exact List.mem_cons_of_mem _ hee
    obtain ⟨j, hj, hjg⟩ := exists_getD_of_mem (⟨0, 0⟩ : NormalizedLineOffset) hetab
    have hjm : m < j := by
      rcases lt_trichotomy j m with hc | hc | hc
      · have hpw := pairwise_getD (tablePairwise_offset t) j m ⟨0, 0⟩ hc hm
        rw [hjg] at hpw
        omega
      · subst hc
        rw [hjg] at hq1
        omega
      · exact hc
    have hgo := hgt j hjm hj
    rw [hjg] at hgo
    have hoq : o = q + 1 := by omega
    have htrue : insideCRLF t o = true := by
      subst hoq
      simp only [insideCRLF, Bool.and_eq_true, decide_eq_true_eq, beq_iff_eq, Nat.add_sub_cancel]
      exact ⟨⟨by omega, hcr⟩, hlf⟩
    rw [h3] at htrue
    exact Bool.false_ne_true htrue
  have hcount := countNonCR_interval t ((lineOffsets t).getD m ⟨0, 0⟩).offset o hle h2 hNoCR
  rw [normalizedOffset, heq]
  omega

/-! ## Claim theorems -/

/-- C7 (amended): in a text without lone carriage returns, for offsets
`start ≤ end ≤ length` neither of which points at the `\n` of a `\r\n` pair,
the single-scan `countNormalizedOffsets` agrees with the line-table
translation `normalizedOffset` on both components. -/
theorem countNormalizedOffsets_eq_table (t : List Char) (s e : Nat) (h1 : noLoneCR t = true)
    (hs : insideCRLF t s = false) (he : insideCRLF t e = false) (hse : s ≤ e)
    (hel : e ≤ t.length) :
    countNormalizedOffsets t s e = (normalizedOffset t s, normalizedOffset t e) := by
  rw [countNormalizedOffsets, Nat.min_eq_left hse,
    normalizedOffset_eq_countNonCR t s h1 (le_trans hse hel) hs,
    normalizedOffset_eq_countNonCR t e h1 hel he]

/-- Witness for C7 (amended) at the concrete text `a\nb`, offsets 1 and 3. -/
theorem countNormalizedOffsets_eq_table_witness :
    countNormalizedOffsets "a\nb".toList 1 3 =
      (normalizedOffset "a\nb".toList 1, normalizedOffset "a\nb".toList 3) :=
  countNormalizedOffsets_eq_table "a\nb".toList 1 3 (by decide) (by decide) (by decide)
    (by decide) (by decide)

/-- C7 (counterexample to the claim as stated): in the text `a\r\nb`, at
`start = end = 2` (which points at the `\n` of the pair, a valid offset in
`[0, length]`), the counting scan yields `(1, 1)` but the line-table
translation yields `(2, 2)`. -/
theorem countNormalizedOffsets_ne_table_counterexample :
    countNormalizedOffsets "a\r\nb".toList 2 2 = (1, 1) ∧
    (normalizedOffset "a\r\nb".toList 2, normalizedOffset "a\r\nb".toList 2) = (2, 2) ∧
    countNormalizedOffsets "a\r\nb".toList 2 2 ≠
      (normalizedOffset "a\r\nb".toList 2, normalizedOffset "a\r\nb".toList 2) := by
  decide

/-- C3: on the CRLF-only document `\r\n`, the line-offset computation
reports `length = 2` (as the claim says) but `normalizedLength = 3`
(`2 + 2 - 1`, per the source's formula), not `1` as the claim and the spec's
boundary table require. -/
theorem crlf_only_normalizedLength :
    computeNormalizedLineOffsets ['\r', '\n'] =
      ⟨[⟨0, 0⟩, ⟨1, 2⟩], 2, 3⟩ ∧
    (computeNormalizedLineOffsets ['\r', '\n']).normalizedLength ≠ 1 := by
  decide

/-- Equal-start changes keep their original order through the sort, matching
the stability of the source's `Array.prototype.sort`; consequently, against a
recorded set with `before` empty and `after = YX`, the editor list
`(0,0,X), (0,0,Y)` splices to `XY`, is NOT judged an echo, and the update is
forwarded to the CRDT — as in the program. -/
theorem sortByStart_keeps_tie_order :
    sortByStart [⟨0, 0, ['X']⟩, ⟨0, 0, ['Y']⟩] = [⟨0, 0, ['X']⟩, ⟨0, 0, ['Y']⟩] ∧
    shouldApplyDoc [⟨[], ['Y', 'X']⟩] [⟨0, 0, ['X']⟩, ⟨0, 0, ['Y']⟩] = true ∧
    (update ⟨[], [⟨[], ['Y', 'X']⟩]⟩ [] (YEvent.changes [⟨0, 0, ['X']⟩, ⟨0, 0, ['Y']⟩])).2 ≠
      [] := by
  decide

/-- C1: while a `ChangeSet` recorded by `observe` is pending, any change list
whose sorted splice into its `before` reproduces its `after` is judged an
echo: `shouldApply` returns `false`, and `update` leaves the state untouched
and writes nothing to the CRDT. -/
theorem echo_suppression (sets : List ChangeSet) (C : List YTextChange) (cs : ChangeSet)
    (t crdt : List Char) (h1 : cs ∈ sets)
    (h2 : spliceAll cs.before (sortByStart C) = cs.after) :
    shouldApplyDoc sets C = false ∧
    update ⟨t, sets⟩ crdt (YEvent.changes C) = (⟨t, sets⟩, []) := by
  have hAny : (sets.any (fun s => spliceAll s.before (sortByStart C) == s.after)) = true := by
    rw [List.any_eq_true]
    exact ⟨cs, h1, by rw [h2]; exact beq_self_eq_true _⟩
  have hFalse : shouldApplyDoc sets C = false := by
    rw [shouldApplyDoc]
    simp only [hAny, Bool.not_true]
  refine ⟨hFalse, ?_⟩
  rw [update]
  simp only [hFalse, Bool.false_eq_true, if_false]

/-- Witness for C1: the literal scenario of the spec. The CRDT fires
`[retain 5, insert "X"]` on `hello\nworld`; while the recorded change set is
pending, the editor re-emits `(5, 5, "X")`; `shouldApply` returns `false` and
no CRDT write happens. -/
theorem echo_suppression_witness :
    shouldApplyDoc (observePending ⟨"hello\nworld".toList, []⟩
        [DeltaOp.retain 5, DeltaOp.insert ['X']]).changeSets [⟨5, 5, ['X']⟩] = false ∧
    update ⟨(observePending ⟨"hello\nworld".toList, []⟩
          [DeltaOp.retain 5, DeltaOp.insert ['X']]).text,
        (observePending ⟨"hello\nworld".toList, []⟩
          [DeltaOp.retain 5, DeltaOp.insert ['X']]).changeSets⟩ []
        (YEvent.changes [⟨5, 5, ['X']⟩]) =
      (⟨(observePending ⟨"hello\nworld".toList, []⟩
          [DeltaOp.retain 5, DeltaOp.insert ['X']]).text,
        (observePending ⟨"hello\nworld".toList, []⟩
          [DeltaOp.retain 5, DeltaOp.insert ['X']]).changeSets⟩, []) :=
  echo_suppression _ [⟨5, 5, ['X']⟩]
    ⟨"hello\nworld".toList, "helloX\nworld".toList⟩ _ [] (by decide) (by decide)

/-- C4 (amended): when the user callback of an inbound remote edit fails, the
error is re-raised to the caller, but the recorded `ChangeSet` is NOT removed
from the pending list — it stays appended (removal happens only after a
successful callback; the source has no try/finally). -/
theorem failed_callback_keeps_changeset (st : DocState) (delta : List DeltaOp)
    (callback : List YTextChange → Except String Unit) (msg : String)
    (h : callback (observeChanges st.text delta) = Except.error msg) :
    observeStep st false delta callback = (observePending st delta, Except.error msg) ∧
    (observeStep st false delta callback).1.changeSets =
      st.changeSets ++ [⟨st.text, (doUpdateChanges st.text (observeChanges st.text delta) false).1⟩] := by
  constructor
  · rw [observeStep]
    simp only [h, if_false, Bool.false_eq_true]
  · rw [observeStep]
    simp only [h, if_false, Bool.false_eq_true]
    rfl

/-- Witness for C4 (amended) at a concrete state and failing callback. -/
theorem failed_callback_keeps_changeset_witness :
    observeStep ⟨"hello\nworld".toList, []⟩ false [DeltaOp.retain 5, DeltaOp.insert ['X']]
        (fun _ => Except.error "boom") =
      (observePending ⟨"hello\nworld".toList, []⟩ [DeltaOp.retain 5, DeltaOp.insert ['X']],
        Except.error "boom") ∧
    (observeStep ⟨"hello\nworld".toList, []⟩ false [DeltaOp.retain 5, DeltaOp.insert ['X']]
        (fun _ => Except.error "boom")).1.changeSets =
      [] ++ [⟨"hello\nworld".toList,
        (doUpdateChanges "hello\nworld".toList
          (observeChanges "hello\nworld".toList [DeltaOp.retain 5, DeltaOp.insert ['X']])
          false).1⟩] :=
  failed_callback_keeps_changeset ⟨"hello\nworld".toList, []⟩
    [DeltaOp.retain 5, DeltaOp.insert ['X']] (fun _ => Except.error "boom") "boom" rfl

/-- C4 (counterexample to the claim as stated): with a failing callback, the
error is re-raised but the pending list is NOT emptied — the `ChangeSet`
recorded for the edit is still there. -/
theorem failed_callback_counterexample :
    (observeStep ⟨"hello\nworld".toList, []⟩ false [DeltaOp.retain 5, DeltaOp.insert ['X']]
        (fun _ => Except.error "boom")).2 = Except.error "boom" ∧
    (observeStep ⟨"hello\nworld".toList, []⟩ false [DeltaOp.retain 5, DeltaOp.insert ['X']]
        (fun _ => Except.error "boom")).1.changeSets =
      [⟨"hello\nworld".toList, "helloX\nworld".toList⟩] ∧
    (observeStep ⟨"hello\nworld".toList, []⟩ false [DeltaOp.retain 5, DeltaOp.insert ['X']]
        (fun _ => Except.error "boom")).1.changeSets ≠ [] := by
  refine ⟨rfl, by decide, by decide⟩

theorem applyTextChangesGo_error_iff (text : List Char) :
    ∀ (cs : List YTextChange) (lm : Nat) (acc : List Char),
      (applyTextChangesGo text cs lm acc = Except.error "Overlapping edit") ↔
        noOverlapB lm cs = false := by
  intro cs
  induction cs with
  | nil =>
    intro lm acc
    simp [applyTextChangesGo, noOverlapB]
  | cons c rest ih =>
    intro lm acc
    by_cases hlt : c.start < lm
    · have hnle : ¬ lm ≤ c.start := by omega
      simp [applyTextChangesGo, noOverlapB, hlt, hnle]
    · have hle : lm ≤ c.start := by omega
      simp only [applyTextChangesGo, if_neg hlt]
      rw [ih]
      simp [noOverlapB, hle]

theorem applyTextChangesGo_ok (text : List Char) :
    ∀ (cs : List YTextChange) (lm : Nat) (acc : List Char), noOverlapB lm cs = true →
      ∃ s, applyTextChangesGo text cs lm acc = Except.ok s := by
  intro cs
  induction cs with
  | nil =>
    intro lm acc _
    exact ⟨acc ++ text.drop lm, rfl⟩
  | cons c rest ih =>
    intro lm acc h
    simp only [noOverlapB, Bool.and_eq_true, decide_eq_true_eq] at h
    obtain ⟨h1, h2⟩ := h
    have hlt : ¬ c.start < lm := by omega
    simp only [applyTextChangesGo, if_neg hlt]
    exact ih c.endPos _ h2

/-- C5 (counterexample to the claim as stated): on `abcdef` with the sorted,
overlapping change list `(0,3,X), (2,4,Y)` (the second change starts before
the cumulative end 3 of the first), `update` does not signal anything — it
completes, blindly splices the mirror to `Yef` and emits four CRDT writes. -/
theorem update_overlap_no_signal_counterexample :
    update ⟨"abcdef".toList, []⟩ [] (YEvent.changes [⟨0, 3, ['X']⟩, ⟨2, 4, ['Y']⟩]) =
      (⟨"Yef".toList, []⟩,
        [CrdtOp.del 0 3, CrdtOp.ins 0 ['X'], CrdtOp.del 0 2, CrdtOp.ins 0 ['Y']]) := by
  decide

/-- C5 (amended): `update` performs no overlap detection; the `Overlapping
edit` error is raised by the Change Tracker's `applyTextChanges`, and it is
raised exactly when some change starts before the immediately preceding
change's end, in the given (unsorted) order. -/
theorem overlapping_edit_signal (t : List Char) (cs : List YTextChange) :
    applyTextChanges t cs = Except.error "Overlapping edit" ↔ noOverlapB 0 cs = false :=
  applyTextChangesGo_error_iff t cs 0 []

/-- C6 (counterexample to the claim as stated): construct the document from
`a\nb` (no carriage return), then replace the full text with `a\r\nb`. A
remote insert of `x\n` is now rewritten to `x\r\n` — the detection used the
current text, not the construction-time value (which would give `x\n`). -/
theorem hasCR_recomputed_counterexample :
    observeChanges (update ⟨"a\nb".toList, []⟩ [] (YEvent.full "a\r\nb".toList)).1.text
        [DeltaOp.insert ['x', '\n']] = [⟨0, 0, ['x', '\r', '\n']⟩] ∧
    observeChangesConstructionCR "a\nb".toList
        (update ⟨"a\nb".toList, []⟩ [] (YEvent.full "a\r\nb".toList)).1.text
        [DeltaOp.insert ['x', '\n']] = [⟨0, 0, ['x', '\n']⟩] ∧
    observeChanges (update ⟨"a\nb".toList, []⟩ [] (YEvent.full "a\r\nb".toList)).1.text
        [DeltaOp.insert ['x', '\n']] ≠
      observeChangesConstructionCR "a\nb".toList
        (update ⟨"a\nb".toList, []⟩ [] (YEvent.full "a\r\nb".toList)).1.text
        [DeltaOp.insert ['x', '\n']] := by
  decide

/-- C6 (amended): `hasCR = contains(text, CR)` is recomputed from the current
text mirror on every remote event. After a full-text replacement with `s`,
`observe` translates exactly as the construction-CR variant would if the
document had been constructed from `s` — the original construction text is
irrelevant. -/
theorem hasCR_recomputed_each_event (st : DocState) (crdt s : List Char)
    (delta : List DeltaOp) :
    observeChanges (update st crdt (YEvent.full s)).1.text delta =
      observeChangesConstructionCR s (update st crdt (YEvent.full s)).1.text delta := rfl

theorem applyEditLoop_all_rejected {α : Type} (edits : Nat → Option α)
    (respond : Nat → Except Unit Bool) :
    ∀ (fuel k : Nat),
      (∀ j, k ≤ j → j < k + fuel → respond j = Except.ok false ∧ (edits j).isSome = true) →
      applyEditLoop edits respond fuel k = (false, (List.range' k fuel).filterMap edits) ∧
        ((List.range' k fuel).filterMap edits).length = fuel := by
  intro fuel
  induction fuel with
  | zero =>
    intro k h
    simp [applyEditLoop, List.range']
  | succ fuel ih =>
    intro k h
    obtain ⟨hr, hs⟩ := h k (le_refl k) (by omega)
    obtain ⟨e, he⟩ := Option.isSome_iff_exists.mp hs
    obtain ⟨ih1, ih2⟩ := ih (k + 1) (fun j hj1 hj2 => h j (by omega) (by omega))
    constructor
    · simp only [applyEditLoop, he, hr, ih1]
      simp [List.range', he]
    · simp [List.range', he, ih2]

/-- C9: when the editor rejects 20 consecutive attempts, the `applyEdit` loop
recomputes and submits a fresh edit on each of the 20 attempts (the submitted
list is `edit(0), ..., edit(19)`), returns `false` rather than raising, and
the observer still reaches the `throttle()` call that schedules the resync;
nothing is re-raised to the caller. -/
theorem retry_exhaustion {α : Type} (edits : Nat → Option α)
    (respond : Nat → Except Unit Bool)
    (hr : ∀ j, j < 20 → respond j = Except.ok false)
    (he : ∀ j, j < 20 → (edits j).isSome = true) :
    handleRemoteEdit edits respond = ⟨false, (List.range 20).filterMap edits, true, none⟩ ∧
    ((List.range 20).filterMap edits).length = 20 := by
  obtain ⟨h1, h2⟩ := applyEditLoop_all_rejected edits respond 20 0
    (fun j hj1 hj2 => ⟨hr j (by omega), he j (by omega)⟩)
  rw [List.range_eq_range']
  constructor
  · simp only [handleRemoteEdit, applyEdit, h1]
  · exact h2

/-- Witness for C9 at a concrete pair of edit generator and rejecting editor. -/
theorem retry_exhaustion_witness :
    handleRemoteEdit (fun k => some k) (fun _ => Except.ok false) =
      ⟨false, (List.range 20).filterMap (fun k => some k), true, none⟩ ∧
    ((List.range 20).filterMap (fun k : Nat => some k)).length = 20 :=
  retry_exhaustion (fun k => some k) (fun _ => Except.ok false)
    (fun _ _ => rfl) (fun _ _ => rfl)

theorem toChangesGo_noOverlap : ∀ (delta : List DeltaOp) (i lm : Nat), lm ≤ i →
    noOverlapB lm (toChangesGo delta i) = true := by
  intro delta
  induction delta with
  | nil =>
    intro i lm _
    rfl
  | cons op rest ih =>
    intro i lm h
    cases op with
    | retain n =>
      simp only [toChangesGo]
      exact ih (i + n) lm (by omega)
    | insert s =>
      simp only [toChangesGo, noOverlapB]
      simp [h, ih i i (le_refl i)]
    | insertEmbedded =>
      simp only [toChangesGo]
      exact ih i lm h
    | delete n =>
      simp only [toChangesGo, noOverlapB]
      simp [h, ih (i + n) (i + n) (le_refl _)]

theorem chain_of_noOverlap : ∀ (cs : List YTextChange) (lm : Nat), noOverlapB lm cs = true →
    List.Chain' (fun a b => a.endPos ≤ b.start) cs := by
  intro cs
  induction cs with
  | nil =>
    intro lm _
    exact List.chain'_nil
  | cons c rest ih =>
    intro lm h
    simp only [noOverlapB, Bool.and_eq_true, decide_eq_true_eq] at h
    obtain ⟨h1, h2⟩ := h
    cases rest with
    | nil => simp
    | cons d rest2 =>
      have h2b := h2
      simp only [noOverlapB, Bool.and_eq_true, decide_eq_true_eq] at h2b
      exact List.chain'_cons.mpr ⟨h2b.1, ih c.endPos h2⟩

/-- C10: converting a CRDT delta to a change list yields changes ordered so
that each change starts at or after the preceding change's end (retain and
delete counts are naturals, hence non-negative); splicing that list with
`applyTextChanges` therefore always succeeds and never reaches the
`Overlapping edit` branch. -/
theorem delta_changes_never_overlap (delta : List DeltaOp) (t : List Char) :
    List.Chain' (fun a b => a.endPos ≤ b.start) (toChanges delta) ∧
    ∃ s, applyTextChanges t (toChanges delta) = Except.ok s := by
  have hno : noOverlapB 0 (toChanges delta) = true := toChangesGo_noOverlap delta 0 0 (le_refl 0)
  exact ⟨chain_of_noOverlap _ 0 hno, applyTextChangesGo_ok t _ 0 [] hno⟩

end OCT
